import Mathlib

/-!
Verification of the constrained integer allocation algorithm of
src/scripts/calculate_token_prices.py (function calculate_token_prices).

Modelling conventions:

* A CSV row (Python dict) is modelled as an association list of string
  key/value pairs; dict lookup with default value "" and dict assignment are
  `Record.get` / `Record.set`.

* Python performs the numeric part with floats.  Every quantity in the
  pipeline is integer-valued (prices and stocks come from digit strings,
  token prices are ints, weighted sums are products of ints) except the
  per-item ideal token price `target_token_price = pvp * targetSum / total`.
  We embed the arithmetic exactly over the rationals, representing
  `target_token_price` by its numerator `target_num = pvp * targetSum`
  over the common denominator `target_den = total` (which is positive for
  every item the pipeline creates).  All sums, differences and residuals are
  then integers.  Concrete scenario inputs used below are chosen so that the
  double-precision run of the script produces exactly the same comparisons
  and rounded values as the exact-rational semantics.

* `round` in Python is round-half-to-even; `pyRoundNum n d` implements it
  for the exact rational `n / d` with `d > 0`.

* The script's return value is `True`/`False`; we model the call as
  returning the (possibly updated) record list together with `Option ℤ`:
  `none` for the `return False` paths (on which no record is touched) and
  `some finalSum` for the `return True` path, where `finalSum` is the final
  weighted sum the script computes (and prints) at line 179.

* Lines 85-102 of the source (the first proportional rounding loop) are
  dead: lines 120-122 overwrite `token_price_int` and `weighted_value` of
  every allocation before they are ever read.  The embedding starts from
  the surviving computation (lines 110-122).
-/

namespace TokenPrices

/-- A CSV row: association list of column name / cell value. -/
structure Record where
  entries : List (String × String)
deriving DecidableEq

/-- Lookup of a key in an association list, defaulting to "" like
`dict.get(key, '')` on a CSV row (all cells are strings). -/
def getEntry : List (String × String) → String → String
  | [], _ => ""
  | (k, v) :: rest, key => if k = key then v else getEntry rest key

/-- Dict assignment `d[key] = v`: replace the first binding or append. -/
def setEntry : List (String × String) → String → String → List (String × String)
  | [], key, v => [(key, v)]
  | (k, w) :: rest, key, v =>
    if k = key then (key, v) :: rest else (k, w) :: setEntry rest key v

def Record.get (r : Record) (key : String) : String := getEntry r.entries key

def Record.set (r : Record) (key v : String) : Record := ⟨setEntry r.entries key v⟩

/-- Python `str.strip()`: drop leading and trailing whitespace. -/
def pyStrip (s : List Char) : List Char :=
  ((s.dropWhile Char.isWhitespace).reverse.dropWhile Char.isWhitespace).reverse

/-- Python `str.isdigit()` on the ASCII strings this script consumes:
non-empty and all characters are decimal digits.  (Python additionally
accepts some non-ASCII digit characters, on which the script would then
crash in `float()`; such inputs are outside this model.) -/
def pyIsdigit (s : List Char) : Bool :=
  !s.isEmpty && s.all Char.isDigit

/-- Numeric value of a digit string. -/
def digitsToNat (s : List Char) : ℕ :=
  s.foldl (fun n c => 10 * n + (c.toNat - 48)) 0

/-- `float()` applied to a validated digit string is its integer value. -/
def floatOfDigits (s : List Char) : ℤ :=
  (digitsToNat s : ℤ)

/-- `pvp_val = float(pc.get('pvp_number', '').strip())` for a valid record. -/
def pvpOf (r : Record) : ℤ :=
  floatOfDigits (pyStrip (Record.get r "pvp_number").data)

/-- `stock_val = float(pc.get('nr_provogrammers_number', '').strip())`. -/
def stockOf (r : Record) : ℤ :=
  floatOfDigits (pyStrip (Record.get r "nr_provogrammers_number").data)

/-- The validity filter of lines 40-46: both fields non-empty digit strings
after stripping, and both numeric values positive. -/
def isValidEntry (r : Record) : Bool :=
  let pvp := pyStrip (Record.get r "pvp_number").data
  let stock := pyStrip (Record.get r "nr_provogrammers_number").data
  !pvp.isEmpty && pyIsdigit pvp && !stock.isEmpty && pyIsdigit stock &&
    decide (0 < floatOfDigits pvp) && decide (0 < floatOfDigits stock)

/-- One entry of `valid_records` (lines 47-51), remembering the position of
the record in the input batch. -/
structure ValidRec where
  idx : ℕ
  record : Record
  pvp : ℤ
  stock_initial : ℤ
deriving DecidableEq

/-- Build `valid_records` walking the batch, numbering records from `i`. -/
def validAux : ℕ → List Record → List ValidRec
  | _, [] => []
  | i, r :: rest =>
    if isValidEntry r then
      ⟨i, r, pvpOf r, stockOf r⟩ :: validAux (i + 1) rest
    else
      validAux (i + 1) rest

/-- `valid_records` (lines 38-51). -/
def valid_records (batch : List Record) : List ValidRec :=
  validAux 0 batch

/-- `total_pvp_stock = sum(r['pvp'] * r['stock_initial'] ...)` (line 61). -/
def total_pvp_stock (vs : List ValidRec) : ℤ :=
  (vs.map fun r => r.pvp * r.stock_initial).sum

/-- Round-half-to-even of the rational `n / d`, for `d > 0`: Python `round`.
`f` is the floor, `r2` is twice the remainder, compared against `d`. -/
def pyRoundNum (n d : ℤ) : ℤ :=
  let f := Int.fdiv n d
  let r2 := 2 * (n - f * d)
  if r2 < d then f
  else if d < r2 then f + 1
  else if f % 2 = 0 then f else f + 1

/-- One entry of `token_allocations`.  `target_token_price` of the source is
the exact rational `target_num / target_den` (for pipeline-made allocations
`target_num = pvp * targetSum` and `target_den = total_pvp_stock > 0`). -/
structure Alloc where
  idx : ℕ
  stock_initial : ℤ
  target_num : ℤ
  target_den : ℤ
  token_price_int : ℤ
deriving DecidableEq

/-- `weighted_value = token_price_int * stock_initial` (kept in sync with
`token_price_int` at every update site of the source). -/
def Alloc.weighted_value (a : Alloc) : ℤ :=
  a.token_price_int * a.stock_initial

/-- `current_sum = sum(a['weighted_value'] for a in token_allocations)`. -/
def currentSum (l : List Alloc) : ℤ :=
  (l.map Alloc.weighted_value).sum

/-- Lines 110-122: per item, `target_weighted = (pvp * stock / total) *
targetSum`, `target_token_price = target_weighted / stock` if `stock > 0`
else 0 — i.e. the exact rational `pvp * targetSum / total` — and then
`token_price_int = max(1, round(target_token_price))`. -/
def token_allocations (batch : List Record) (targetSum : ℤ) : List Alloc :=
  let vs := valid_records batch
  let total := total_pvp_stock vs
  vs.map fun r =>
    let tnum := if 0 < r.stock_initial then r.pvp * targetSum else 0
    let tden := if 0 < r.stock_initial then total else 1
    { idx := r.idx
      stock_initial := r.stock_initial
      target_num := tnum
      target_den := tden
      token_price_int := max 1 (pyRoundNum tnum tden) }

/-- Sort key of line 133: `abs(target_token_price - token_price_int)`,
scaled by the (positive, shared) denominator so it stays an integer.  For
allocations with a common positive `target_den` the induced order is the
order of the source's float key. -/
def errKey (a : Alloc) : ℤ :=
  |a.target_num - a.token_price_int * a.target_den|

/-- Descending-error order used by the coarse pass (stable, ties keep
input order, like Python list.sort with reverse=True). -/
def errGE (a b : Alloc) : Prop := errKey b ≤ errKey a

instance : DecidableRel errGE := fun a b =>
  inferInstanceAs (Decidable (errKey b ≤ errKey a))

instance : IsTotal Alloc errGE := ⟨fun a b => le_total (errKey b) (errKey a)⟩

instance : IsTrans Alloc errGE := ⟨fun _ _ _ h1 h2 => le_trans h2 h1⟩

/-- Ascending-stock order used by the fine pass. -/
def stockLE (a b : Alloc) : Prop := a.stock_initial ≤ b.stock_initial

instance : DecidableRel stockLE := fun a b =>
  inferInstanceAs (Decidable (a.stock_initial ≤ b.stock_initial))

instance : IsTotal Alloc stockLE := ⟨fun a b => le_total a.stock_initial b.stock_initial⟩

instance : IsTrans Alloc stockLE := ⟨fun _ _ _ h1 h2 => le_trans h1 h2⟩

/-- Line 132-135: stable sort by descending rounding error. -/
def sortByError (l : List Alloc) : List Alloc :=
  List.insertionSort errGE l

/-- Line 159: stable sort by ascending stock. -/
def sortByStock (l : List Alloc) : List Alloc :=
  List.insertionSort stockLE l

def incToken (a : Alloc) : Alloc := { a with token_price_int := a.token_price_int + 1 }

def decToken (a : Alloc) : Alloc := { a with token_price_int := a.token_price_int - 1 }

/-- Lines 140-144: walk the list once; while `difference > 0` increment the
item and subtract its stock from `difference`. -/
def coarseInc : List Alloc → ℤ → List Alloc × ℤ
  | [], d => ([], d)
  | a :: l, d =>
    if 0 < d then
      let p := coarseInc l (d - a.stock_initial)
      (incToken a :: p.1, p.2)
    else
      let p := coarseInc l d
      (a :: p.1, p.2)

/-- Lines 147-151: walk the list once; while `difference < 0` and the item
is above the floor of 1, decrement it and add its stock back. -/
def coarseDec : List Alloc → ℤ → List Alloc × ℤ
  | [], d => ([], d)
  | a :: l, d =>
    if d < 0 ∧ 1 < a.token_price_int then
      let p := coarseDec l (d + a.stock_initial)
      (decToken a :: p.1, p.2)
    else
      let p := coarseDec l d
      (a :: p.1, p.2)

/-- Lines 131-151: the coarse redistribution pass. -/
def coarsePass (l : List Alloc) (difference : ℤ) : List Alloc :=
  let sorted := sortByError l
  if 0 < difference then (coarseInc sorted difference).1
  else (coarseDec sorted difference).1

/-- Lines 162-176: the fine sweep.  Each item is incremented if the
remaining difference is positive, decremented if it is negative and the
item is above 1; the loop breaks as soon as the difference is zero,
leaving the rest of the list untouched. -/
def fineSweep : List Alloc → ℤ → List Alloc × ℤ
  | [], d => ([], d)
  | a :: l, d =>
    let p :=
      if 0 < d then (incToken a, d - a.stock_initial)
      else if d < 0 ∧ 1 < a.token_price_int then (decToken a, d + a.stock_initial)
      else (a, d)
    if |p.2| = 0 then (p.1 :: l, p.2)
    else (p.1 :: (fineSweep l p.2).1, (fineSweep l p.2).2)

/-- Lines 153-176: recompute the remaining difference and, if non-zero,
run the fine sweep over the stock-sorted list. -/
def finePass (l : List Alloc) (targetSum : ℤ) : List Alloc :=
  let remaining := targetSum - currentSum l
  if 0 < |remaining| then (fineSweep (sortByStock l) remaining).1 else l

/-- Lines 124-176: both redistribution passes, run only when the initial
difference is non-zero. -/
def redistribute (l : List Alloc) (targetSum : ℤ) : List Alloc :=
  let difference := targetSum - currentSum l
  if difference ≠ 0 then finePass (coarsePass l difference) targetSum else l

/-- One step of the claim's description of the coarse pass in increment
mode: if the residual is still positive, append the item incremented by 1
and subtract its multiplicity from the residual; otherwise append the item
unchanged. -/
def specIncStep (p : List Alloc × ℤ) (a : Alloc) : List Alloc × ℤ :=
  if 0 < p.2 then (p.1 ++ [incToken a], p.2 - a.stock_initial)
  else (p.1 ++ [a], p.2)

/-- One step of the claim's description of the coarse pass in decrement
mode: if the residual is still negative and the item is above the floor of
1, append it decremented by 1 and add its multiplicity back; otherwise
append it unchanged. -/
def specDecStep (p : List Alloc × ℤ) (a : Alloc) : List Alloc × ℤ :=
  if p.2 < 0 ∧ 1 < a.token_price_int then (p.1 ++ [decToken a], p.2 + a.stock_initial)
  else (p.1 ++ [a], p.2)

/-- The coarse pass exactly as the claim describes it: a single
left-to-right walk over the (already error-ordered) list, incrementing
while the residual is positive, decrementing (floor permitting) while it is
negative, and adjusting nothing once the residual has lost the sign that
selected the walk mode. -/
def specCoarseWalk (l : List Alloc) (residual : ℤ) : List Alloc × ℤ :=
  if 0 < residual then l.foldl specIncStep ([], residual)
  else l.foldl specDecStep ([], residual)

/-- Lines 192-200 for one record at batch position `i`: the record of an
allocation is updated with `token_price_number = str(tokens)` and
`price_currency_option_currency_type = 'token'`; other records are
untouched.  (In the source each allocation holds a reference to its record;
positions and allocation indices are in bijection, so updating by index is
the same update.) -/
def applyAllocsAux (allocs : List Alloc) : ℕ → List Record → List Record
  | _, [] => []
  | i, r :: rest =>
    (match allocs.find? (fun a => a.idx == i) with
     | some a =>
        (r.set "token_price_number" (toString a.token_price_int)).set
          "price_currency_option_currency_type" "token"
     | none => r) :: applyAllocsAux allocs (i + 1) rest

def applyAllocs (batch : List Record) (allocs : List Alloc) : List Record :=
  applyAllocsAux allocs 0 batch

/-- The whole of `calculate_token_prices` (lines 27-216), with the target
sum as explicit configuration (the script applies it at `TARGET_SUM =
11000`).  Result: the records after the call, and `none` for the
`return False` paths / `some final_sum` for the `return True` path. -/
def calculate_token_prices (batch : List Record) (targetSum : ℤ) :
    List Record × Option ℤ :=
  let vs := valid_records batch
  if vs.isEmpty then (batch, none)
  else if total_pvp_stock vs = 0 then (batch, none)
  else
    let final := redistribute (token_allocations batch targetSum) targetSum
    (applyAllocs batch final, some (currentSum final))

/-- The module-level constant of line 25. -/
def TARGET_SUM : ℤ := 11000

/-! ### Concrete batches used in scenario theorems and witnesses -/

def recB0 : Record := ⟨[("_id", "item-a"), ("pvp_number", "1"), ("nr_provogrammers_number", "1")]⟩

def recB1 : Record := ⟨[("_id", "item-b"), ("pvp_number", "1"), ("nr_provogrammers_number", "1")]⟩

/-- Scenario B: weights [1, 1], multiplicities [1, 1]. -/
def batchB : List Record := [recB0, recB1]

def recD0 : Record := ⟨[("_id", "item-a"), ("pvp_number", "1"), ("nr_provogrammers_number", "5")]⟩

def recD1 : Record := ⟨[("_id", "item-b"), ("pvp_number", "1"), ("nr_provogrammers_number", "5")]⟩

/-- Scenario D: both items floored at 1, multiplicities [5, 5]. -/
def batchD : List Record := [recD0, recD1]

/-- Weights [10, 10], multiplicities [3, 5]: with targetSum 14 the target is
reachable (3·3 + 1·5) but the greedy passes end at 11. -/
def batchE : List Record :=
  [⟨[("_id", "item-a"), ("pvp_number", "10"), ("nr_provogrammers_number", "3")]⟩,
   ⟨[("_id", "item-b"), ("pvp_number", "10"), ("nr_provogrammers_number", "5")]⟩]

/-- Scenario C: one item, weight 100, multiplicity 50. -/
def batchC : List Record :=
  [⟨[("_id", "item-c"), ("pvp_number", "100"), ("nr_provogrammers_number", "50")]⟩]

def rec9bad : Record := ⟨[("_id", "item-x"), ("pvp_number", "1.5"), ("nr_provogrammers_number", "1")]⟩

/-- One valid record and one rejected by the digit filter. -/
def batch9 : List Record := [recB0, rec9bad]

def rec4 : Record := ⟨[("_id", "item-z"), ("pvp_number", "0"), ("nr_provogrammers_number", "5")]⟩

/-- A batch whose only record fails the positivity filter. -/
def batch4 : List Record := [rec4]

/-- The records `calculate_token_prices batch9 3` produces: the valid record
gains exactly the two output fields, the invalid one is untouched. -/
def recs9 : List Record :=
  [⟨[("_id", "item-a"), ("pvp_number", "1"), ("nr_provogrammers_number", "1"),
     ("token_price_number", "3"), ("price_currency_option_currency_type", "token")]⟩,
   rec9bad]

/-! ### Association-list lemmas -/

theorem getEntry_set_self (l : List (String × String)) (k v : String) :
    getEntry (setEntry l k v) k = v := by
  induction l with
  | nil => simp [setEntry, getEntry]
  | cons p rest ih =>
    by_cases h : p.1 = k
    · simp [setEntry, getEntry, h]
    · simp [setEntry, getEntry, h, ih]

theorem getEntry_set_ne (l : List (String × String)) (k k2 v : String) (h : k ≠ k2) :
    getEntry (setEntry l k2 v) k = getEntry l k := by
  induction l with
  | nil => simp [setEntry, getEntry, Ne.symm h]
  | cons p rest ih =>
    by_cases hp : p.1 = k2
    · simp [setEntry, getEntry, hp, Ne.symm h]
    · simp [setEntry, getEntry, hp, ih]

theorem Record.get_set_self (r : Record) (k v : String) :
    Record.get (Record.set r k v) k = v :=
  getEntry_set_self r.entries k v

theorem Record.get_set_ne (r : Record) (k k2 v : String) (h : k ≠ k2) :
    Record.get (Record.set r k2 v) k = Record.get r k :=
  getEntry_set_ne r.entries k k2 v h

/-! ### Facts about the validity filter -/

theorem mem_validAux {v : ValidRec} (j : ℕ) (batch : List Record)
    (h : v ∈ validAux j batch) :
    isValidEntry v.record = true ∧ v.pvp = pvpOf v.record ∧
      v.stock_initial = stockOf v.record ∧ j ≤ v.idx := by
  induction batch generalizing j with
  | nil => exact absurd h (List.not_mem_nil v)
  | cons r rest ih =>
    unfold validAux at h
    by_cases hr : isValidEntry r
    · rw [if_pos hr] at h
      rcases List.mem_cons.mp h with h1 | h2
      · subst h1; exact ⟨hr, rfl, rfl, le_rfl⟩
      · rcases ih (j + 1) h2 with ⟨a, b, c, d⟩
        exact ⟨a, b, c, le_trans (Nat.le_succ j) d⟩
    · rw [if_neg hr] at h
      rcases ih (j + 1) h with ⟨a, b, c, d⟩
      exact ⟨a, b, c, le_trans (Nat.le_succ j) d⟩

theorem isValidEntry_pos {r : Record} (h : isValidEntry r = true) :
    0 < pvpOf r ∧ 0 < stockOf r := by
  unfold isValidEntry at h
  simp only [Bool.and_eq_true, decide_eq_true_eq] at h
  unfold pvpOf stockOf
  exact ⟨h.1.2, h.2⟩

theorem mem_valid_pos {v : ValidRec} {batch : List Record}
    (h : v ∈ valid_records batch) : 0 < v.pvp ∧ 0 < v.stock_initial := by
  rcases mem_validAux 0 batch h with ⟨hv, hp, hs, _⟩
  rw [hp, hs]
  exact isValidEntry_pos hv

theorem total_pos (batch : List Record) (h : valid_records batch ≠ []) :
    0 < total_pvp_stock (valid_records batch) := by
  unfold total_pvp_stock
  apply List.sum_pos
  · intro x hx
    rcases List.mem_map.mp hx with ⟨v, hv, rfl⟩
    exact mul_pos (mem_valid_pos hv).1 (mem_valid_pos hv).2
  · simpa using h

/-- On a batch with valid records, neither failure guard fires and the call
returns the updated records together with the final weighted sum. -/
theorem calculate_eq_of_valid (batch : List Record) (T : ℤ)
    (h : valid_records batch ≠ []) :
    calculate_token_prices batch T =
      (applyAllocs batch (redistribute (token_allocations batch T) T),
       some (currentSum (redistribute (token_allocations batch T) T))) := by
  unfold calculate_token_prices
  have h1 : (valid_records batch).isEmpty = false := by
    simp [List.isEmpty_iff, h]
  have h2 : ¬ total_pvp_stock (valid_records batch) = 0 := (total_pos batch h).ne'
  simp [h1, h2]

/-! ### The floor-of-1 invariant through the pipeline -/

theorem one_le_init {batch : List Record} {T : ℤ} {a : Alloc}
    (h : a ∈ token_allocations batch T) : 1 ≤ a.token_price_int := by
  unfold token_allocations at h
  rcases List.mem_map.mp h with ⟨r, _, rfl⟩
  exact le_max_left 1 _

theorem coarseInc_one_le (l : List Alloc) (d : ℤ)
    (h : ∀ a ∈ l, 1 ≤ a.token_price_int) :
    ∀ b ∈ (coarseInc l d).1, 1 ≤ b.token_price_int := by
  induction l generalizing d with
  | nil => intro b hb; simp [coarseInc] at hb
  | cons a l ih =>
    intro b hb
    unfold coarseInc at hb
    by_cases hd : 0 < d
    · rw [if_pos hd] at hb
      rcases List.mem_cons.mp hb with h1 | h2
      · subst h1
        have := h a (List.mem_cons_self a l)
        simp only [incToken]
        omega
      · exact ih (d - a.stock_initial) (fun x hx => h x (List.mem_cons_of_mem a hx)) b h2
    · rw [if_neg hd] at hb
      rcases List.mem_cons.mp hb with h1 | h2
      · rw [h1]; exact h a (List.mem_cons_self a l)
      · exact ih d (fun x hx => h x (List.mem_cons_of_mem a hx)) b h2

theorem coarseDec_one_le (l : List Alloc) (d : ℤ)
    (h : ∀ a ∈ l, 1 ≤ a.token_price_int) :
    ∀ b ∈ (coarseDec l d).1, 1 ≤ b.token_price_int := by
  induction l generalizing d with
  | nil => intro b hb; simp [coarseDec] at hb
  | cons a l ih =>
    intro b hb
    unfold coarseDec at hb
    by_cases hd : d < 0 ∧ 1 < a.token_price_int
    · rw [if_pos hd] at hb
      rcases List.mem_cons.mp hb with h1 | h2
      · subst h1
        simp only [decToken]
        omega
      · exact ih (d + a.stock_initial) (fun x hx => h x (List.mem_cons_of_mem a hx)) b h2
    · rw [if_neg hd] at hb
      rcases List.mem_cons.mp hb with h1 | h2
      · rw [h1]; exact h a (List.mem_cons_self a l)
      · exact ih d (fun x hx => h x (List.mem_cons_of_mem a hx)) b h2

theorem fineSweep_one_le (l : List Alloc) (d : ℤ)
    (h : ∀ a ∈ l, 1 ≤ a.token_price_int) :
    ∀ b ∈ (fineSweep l d).1, 1 ≤ b.token_price_int := by
  induction l generalizing d with
  | nil => intro b hb; simp [fineSweep] at hb
  | cons a l ih =>
    intro b hb
    have ha := h a (List.mem_cons_self a l)
    have htail : ∀ x ∈ l, 1 ≤ x.token_price_int :=
      fun x hx => h x (List.mem_cons_of_mem a hx)
    unfold fineSweep at hb
    have hstep : ∀ p : Alloc × ℤ,
        p = (if 0 < d then (incToken a, d - a.stock_initial)
             else if d < 0 ∧ 1 < a.token_price_int then (decToken a, d + a.stock_initial)
             else (a, d)) → 1 ≤ p.1.token_price_int := by
      intro p hp
      by_cases h1 : 0 < d
      · rw [if_pos h1] at hp; subst hp; simp only [incToken]; omega
      · rw [if_neg h1] at hp
        by_cases h2 : d < 0 ∧ 1 < a.token_price_int
        · rw [if_pos h2] at hp; subst hp; simp only [decToken]; omega
        · rw [if_neg h2] at hp; subst hp; exact ha
    simp only at hb
    by_cases hz : |(if 0 < d then (incToken a, d - a.stock_initial)
        else if d < 0 ∧ 1 < a.token_price_int then (decToken a, d + a.stock_initial)
        else (a, d)).2| = 0
    · rw [if_pos hz] at hb
      rcases List.mem_cons.mp hb with h1 | h2
      · subst h1; exact hstep _ rfl
      · exact htail b h2
    · rw [if_neg hz] at hb
      rcases List.mem_cons.mp hb with h1 | h2
      · subst h1; exact hstep _ rfl
      · exact ih _ htail b h2

theorem sortByError_one_le (l : List Alloc)
    (h : ∀ a ∈ l, 1 ≤ a.token_price_int) :
    ∀ b ∈ sortByError l, 1 ≤ b.token_price_int := by
  intro b hb
  exact h b ((List.mem_insertionSort errGE).mp hb)

theorem sortByStock_one_le (l : List Alloc)
    (h : ∀ a ∈ l, 1 ≤ a.token_price_int) :
    ∀ b ∈ sortByStock l, 1 ≤ b.token_price_int := by
  intro b hb
  exact h b ((List.mem_insertionSort stockLE).mp hb)

theorem coarsePass_one_le (l : List Alloc) (d : ℤ)
    (h : ∀ a ∈ l, 1 ≤ a.token_price_int) :
    ∀ b ∈ coarsePass l d, 1 ≤ b.token_price_int := by
  intro b hb
  unfold coarsePass at hb
  by_cases hd : 0 < d
  · rw [if_pos hd] at hb
    exact coarseInc_one_le (sortByError l) d (sortByError_one_le l h) b hb
  · rw [if_neg hd] at hb
    exact coarseDec_one_le (sortByError l) d (sortByError_one_le l h) b hb

theorem finePass_one_le (l : List Alloc) (T : ℤ)
    (h : ∀ a ∈ l, 1 ≤ a.token_price_int) :
    ∀ b ∈ finePass l T, 1 ≤ b.token_price_int := by
  intro b hb
  unfold finePass at hb
  by_cases hr : 0 < |T - currentSum l|
  · rw [if_pos hr] at hb
    exact fineSweep_one_le (sortByStock l) _ (sortByStock_one_le l h) b hb
  · rw [if_neg hr] at hb
    exact h b hb

theorem redistribute_one_le (l : List Alloc) (T : ℤ)
    (h : ∀ a ∈ l, 1 ≤ a.token_price_int) :
    ∀ b ∈ redistribute l T, 1 ≤ b.token_price_int := by
  intro b hb
  unfold redistribute at hb
  by_cases hd : T - currentSum l ≠ 0
  · rw [if_pos hd] at hb
    exact finePass_one_le _ T (coarsePass_one_le l _ h) b hb
  · rw [if_neg hd] at hb
    exact h b hb

/-! ### Claim theorems -/

/-- Claim C1, counterexample: for the batch with weights [10, 10] and
multiplicities [3, 5], targetSum 14 is reachable as an integer combination
with all values at least 1 (3·3 + 1·5 = 14), yet after both redistribution
passes the final weighted sum is 11, not 14.  Exactness when feasible fails
on the code. -/
theorem exactness_counterexample :
    (valid_records batchE).map ValidRec.stock_initial = [3, 5] ∧
    (∃ v1 v2 : ℤ, 1 ≤ v1 ∧ 1 ≤ v2 ∧ v1 * 3 + v2 * 5 = 14) ∧
    (calculate_token_prices batchE 14).2 = some 11 ∧ (11 : ℤ) ≠ 14 :=
  ⟨by decide, ⟨3, 1, by decide, by decide, by decide⟩, by decide, by decide⟩

/-- Claim C1, amended: the two greedy passes do not guarantee exactness for
every feasible batch; what the code does guarantee is that whenever the
weighted sum after initial rounding already equals targetSum, the
redistribution block is skipped and the final weighted sum is exactly
targetSum. -/
theorem exact_when_initial_difference_zero (batch : List Record) (T : ℤ)
    (hv : valid_records batch ≠ [])
    (h0 : T - currentSum (token_allocations batch T) = 0) :
    (calculate_token_prices batch T).2 = some T := by
  rw [calculate_eq_of_valid batch T hv]
  unfold redistribute
  rw [if_neg (not_not_intro h0)]
  have : currentSum (token_allocations batch T) = T := (sub_eq_zero.mp h0).symm
  simp [this]

/-- Witness for `exact_when_initial_difference_zero`: scenario C, one item
of weight 100 and multiplicity 50, targetSum 11000. -/
theorem exact_when_initial_difference_zero_witness :
    (calculate_token_prices batchC 11000).2 = some 11000 :=
  exact_when_initial_difference_zero batchC 11000 (by decide) (by decide)

/-- Claim C2: every allocation carries an integer value of at least 1 after
the initial rounding, after the coarse pass, and after the fine pass (the
full redistribution). -/
theorem floor_invariant (batch : List Record) (T : ℤ) (a : Alloc) :
    (a ∈ token_allocations batch T → 1 ≤ a.token_price_int) ∧
    (a ∈ coarsePass (token_allocations batch T)
        (T - currentSum (token_allocations batch T)) → 1 ≤ a.token_price_int) ∧
    (a ∈ redistribute (token_allocations batch T) T → 1 ≤ a.token_price_int) :=
  ⟨fun h => one_le_init h,
   fun h => coarsePass_one_le (token_allocations batch T) _
     (fun _ hx => one_le_init hx) a h,
   fun h => redistribute_one_le (token_allocations batch T) T
     (fun _ hx => one_le_init hx) a h⟩

/-- Witness for `floor_invariant`: the first allocation of scenario B. -/
theorem floor_invariant_witness : 1 ≤ (Alloc.mk 0 1 3 2 2).token_price_int :=
  (floor_invariant batchB 3 (Alloc.mk 0 1 3 2 2)).1 (by decide)

/-- Claim C3, counterexample: on scenario D the call returns the success
value (the script's `return True`) even though the final weighted sum 10
differs from targetSum 3 — the returned flag does not indicate whether the
weighted sum equals targetSum; the mismatch is only printed as a warning. -/
theorem returned_flag_counterexample :
    (calculate_token_prices batchD 3).2.isSome = true ∧
    (calculate_token_prices batchD 3).2 = some 10 ∧ (10 : ℤ) ≠ 3 := by
  refine ⟨by decide, by decide, by decide⟩

/-- Claim C3, amended: the boolean returned by `calculate_token_prices`
indicates only that the batch passed validation; it is true for every batch
with at least one valid record, whether or not the final weighted sum
equals targetSum (a mismatch is surfaced as a printed warning, not in the
return value). -/
theorem return_true_for_valid_batch (batch : List Record) (T : ℤ)
    (h : valid_records batch ≠ []) :
    (calculate_token_prices batch T).2.isSome = true := by
  rw [calculate_eq_of_valid batch T h]
  rfl

/-- Witness for `return_true_for_valid_batch`, at the scenario-D batch
(where the sum mismatch occurs). -/
theorem return_true_for_valid_batch_witness :
    (calculate_token_prices batchD 3).2.isSome = true :=
  return_true_for_valid_batch batchD 3 (by decide)

/-- Claim C4: if no record passes the validity filter, or the total
weighted sum of the valid records is zero, the call returns the failure
value and the records are returned exactly as given — nothing is written
to any record. -/
theorem invalid_input_atomicity (batch : List Record) (T : ℤ)
    (h : valid_records batch = [] ∨ total_pvp_stock (valid_records batch) = 0) :
    calculate_token_prices batch T = (batch, none) := by
  unfold calculate_token_prices
  by_cases h1 : valid_records batch = []
  · simp [h1]
  · have h2 : total_pvp_stock (valid_records batch) = 0 := h.resolve_left h1
    simp [List.isEmpty_iff, h1, h2]

/-- Witness for `invalid_input_atomicity`: a batch whose only record has
price "0" and is filtered out. -/
theorem invalid_input_atomicity_witness :
    calculate_token_prices batch4 7 = (batch4, none) :=
  invalid_input_atomicity batch4 7 (Or.inl (by decide))

/-- Claim C6, scenario B: two items of weight 1, multiplicity 1, targetSum
3.  The first item ends at 1, the second at 2 (both items round to 2; the
tie on equal error is broken by input order, so the first item is the one
decremented), and the final weighted sum is exactly 3. -/
theorem scenario_B :
    (calculate_token_prices batchB 3).2 = some 3 ∧
    ((calculate_token_prices batchB 3).1.map fun r =>
      Record.get r "token_price_number") = ["1", "2"] := by
  refine ⟨by decide, by decide⟩

/-- Claim C7, scenario D: multiplicities [5, 5], both values floored at 1,
targetSum 3 below the achievable minimum 10.  Both redistribution passes
leave the values at [1, 1], the call terminates with the success value,
and the reported mismatch `final_sum - targetSum` is positive. -/
theorem scenario_D :
    (redistribute (token_allocations batchD 3) 3).map Alloc.token_price_int = [1, 1] ∧
    (calculate_token_prices batchD 3).2 = some 10 ∧
    ((calculate_token_prices batchD 3).1.map fun r =>
      Record.get r "token_price_number") = ["1", "1"] ∧
    0 < (10 : ℤ) - 3 := by
  refine ⟨by decide, by decide, by decide, by decide⟩

/-- Claim C8: whenever the validity filter keeps at least one record, the
total weighted sum is strictly positive, so the division-by-zero guard of
line 63 cannot fire and the call reaches the allocation (returns the
success value). -/
theorem zero_total_guard_unreachable (batch : List Record) (T : ℤ)
    (h : valid_records batch ≠ []) :
    0 < total_pvp_stock (valid_records batch) ∧
      (calculate_token_prices batch T).2.isSome = true := by
  refine ⟨total_pos batch h, ?_⟩
  rw [calculate_eq_of_valid batch T h]
  rfl

/-- Witness for `zero_total_guard_unreachable` at scenario B. -/
theorem zero_total_guard_unreachable_witness :
    0 < total_pvp_stock (valid_records batchB) ∧
      (calculate_token_prices batchB 3).2.isSome = true :=
  zero_total_guard_unreachable batchB 3 (by decide)

/-- Claim C10: a record participates in the allocation only when both its
price and stock fields are (after stripping) non-empty strings of decimal
digits, hence every weight and multiplicity the allocator uses is a
positive integer.  Any record whose price contains a decimal point, sign or
other non-digit character fails `pyIsdigit` and is silently excluded. -/
theorem integer_only_acceptance (batch : List Record) (v : ValidRec)
    (h : v ∈ valid_records batch) :
    pyIsdigit (pyStrip (Record.get v.record "pvp_number").data) = true ∧
    pyIsdigit (pyStrip (Record.get v.record "nr_provogrammers_number").data) = true ∧
    (∃ n : ℕ, 0 < n ∧ v.pvp = (n : ℤ)) ∧
    (∃ m : ℕ, 0 < m ∧ v.stock_initial = (m : ℤ)) := by
  rcases mem_validAux 0 batch h with ⟨hv, hp, hs, _⟩
  have hpos := isValidEntry_pos hv
  unfold isValidEntry at hv
  simp only [Bool.and_eq_true, decide_eq_true_eq] at hv
  refine ⟨hv.1.1.1.1.2, hv.1.1.2, ?_, ?_⟩
  · refine ⟨digitsToNat (pyStrip (Record.get v.record "pvp_number").data), ?_, ?_⟩
    · have := hpos.1
      unfold pvpOf floatOfDigits at this
      exact_mod_cast this
    · rw [hp]; rfl
  · refine ⟨digitsToNat (pyStrip (Record.get v.record "nr_provogrammers_number").data), ?_, ?_⟩
    · have := hpos.2
      unfold stockOf floatOfDigits at this
      exact_mod_cast this
    · rw [hs]; rfl

/-- Witness for `integer_only_acceptance`: the first record of scenario B. -/
theorem integer_only_acceptance_witness :
    pyIsdigit (pyStrip (Record.get (ValidRec.mk 0 recB0 1 1).record "pvp_number").data) = true :=
  (integer_only_acceptance batchB (ValidRec.mk 0 recB0 1 1) (by decide)).1

/-! ### The coarse pass is the single ordered walk the claim describes -/

theorem foldl_specIncStep (l : List Alloc) : ∀ (d : ℤ) (acc : List Alloc),
    l.foldl specIncStep (acc, d) = (acc ++ (coarseInc l d).1, (coarseInc l d).2) := by
  induction l with
  | nil => intro d acc; simp [coarseInc]
  | cons a l ih =>
    intro d acc
    by_cases hd : 0 < d
    · rw [List.foldl_cons, show specIncStep (acc, d) a =
          (acc ++ [incToken a], d - a.stock_initial) from by simp [specIncStep, hd], ih]
      simp [coarseInc, hd]
    · rw [List.foldl_cons, show specIncStep (acc, d) a = (acc ++ [a], d) from by
          simp [specIncStep, hd], ih]
      simp [coarseInc, hd]

theorem foldl_specDecStep (l : List Alloc) : ∀ (d : ℤ) (acc : List Alloc),
    l.foldl specDecStep (acc, d) = (acc ++ (coarseDec l d).1, (coarseDec l d).2) := by
  induction l with
  | nil => intro d acc; simp [coarseDec]
  | cons a l ih =>
    intro d acc
    by_cases hd : d < 0 ∧ 1 < a.token_price_int
    · rw [List.foldl_cons, show specDecStep (acc, d) a =
          (acc ++ [decToken a], d + a.stock_initial) from by simp [specDecStep, hd], ih]
      simp [coarseDec, hd]
    · rw [List.foldl_cons, show specDecStep (acc, d) a = (acc ++ [a], d) from by
          simp [specDecStep, hd], ih]
      simp [coarseDec, hd]

/-- Claim C5: the coarse pass orders the items by descending absolute
rounding error (a stable sort: a permutation of the input, sorted for the
descending-error relation) and then walks the ordered list exactly once,
incrementing while the residual is positive (subtracting the item's
multiplicity), decrementing while it is negative and the value is above 1
(adding the multiplicity back), and adjusting nothing once the residual no
longer has the sign of its branch — i.e. it computes exactly
`specCoarseWalk` of the sorted list. -/
theorem coarse_pass_follows_spec (l : List Alloc) (d : ℤ) :
    coarsePass l d = (specCoarseWalk (sortByError l) d).1 ∧
    (sortByError l).Perm l ∧ List.Sorted errGE (sortByError l) := by
  refine ⟨?_, List.perm_insertionSort errGE l, List.sorted_insertionSort errGE l⟩
  unfold coarsePass specCoarseWalk
  by_cases hd : 0 < d
  · rw [if_pos hd, if_pos hd, foldl_specIncStep]
    simp
  · rw [if_neg hd, if_neg hd, foldl_specDecStep]
    simp

/-! ### The frame property: only the two output fields are written -/

theorem coarseInc_map_idx (l : List Alloc) (d : ℤ) :
    (coarseInc l d).1.map Alloc.idx = l.map Alloc.idx := by
  induction l generalizing d with
  | nil => simp [coarseInc]
  | cons a l ih =>
    by_cases hd : 0 < d
    · simp [coarseInc, hd, incToken, ih]
    · simp [coarseInc, hd, ih]

theorem coarseDec_map_idx (l : List Alloc) (d : ℤ) :
    (coarseDec l d).1.map Alloc.idx = l.map Alloc.idx := by
  induction l generalizing d with
  | nil => simp [coarseDec]
  | cons a l ih =>
    by_cases hd : d < 0 ∧ 1 < a.token_price_int
    · simp [coarseDec, hd, decToken, ih]
    · simp [coarseDec, hd, ih]

theorem fineSweep_map_idx (l : List Alloc) (d : ℤ) :
    (fineSweep l d).1.map Alloc.idx = l.map Alloc.idx := by
  induction l generalizing d with
  | nil => simp [fineSweep]
  | cons a l ih =>
    by_cases h1 : 0 < d
    · by_cases h2 : d - a.stock_initial = 0
      · simp [fineSweep, h1, h2, incToken]
      · simp [fineSweep, h1, h2, incToken, ih]
    · by_cases h2 : d < 0 ∧ 1 < a.token_price_int
      · by_cases h3 : d + a.stock_initial = 0
        · simp [fineSweep, h1, h2, h3, decToken]
        · simp [fineSweep, h1, h2, h3, decToken, ih]
      · by_cases h3 : d = 0
        · simp [fineSweep, h1, h2, h3]
        · simp [fineSweep, h1, h2, h3, ih]

theorem coarsePass_idx_perm (l : List Alloc) (d : ℤ) :
    ((coarsePass l d).map Alloc.idx).Perm (l.map Alloc.idx) := by
  unfold coarsePass
  by_cases hd : 0 < d
  · rw [if_pos hd, coarseInc_map_idx]
    exact (List.perm_insertionSort errGE l).map Alloc.idx
  · rw [if_neg hd, coarseDec_map_idx]
    exact (List.perm_insertionSort errGE l).map Alloc.idx

theorem finePass_idx_perm (l : List Alloc) (T : ℤ) :
    ((finePass l T).map Alloc.idx).Perm (l.map Alloc.idx) := by
  unfold finePass
  by_cases hr : 0 < |T - currentSum l|
  · rw [if_pos hr, fineSweep_map_idx]
    exact (List.perm_insertionSort stockLE l).map Alloc.idx
  · rw [if_neg hr]

theorem redistribute_idx_perm (l : List Alloc) (T : ℤ) :
    ((redistribute l T).map Alloc.idx).Perm (l.map Alloc.idx) := by
  unfold redistribute
  by_cases hd : T - currentSum l ≠ 0
  · rw [if_pos hd]
    exact (finePass_idx_perm _ T).trans (coarsePass_idx_perm l _)
  · rw [if_neg hd]

theorem token_allocations_map_idx (batch : List Record) (T : ℤ) :
    (token_allocations batch T).map Alloc.idx =
      (valid_records batch).map ValidRec.idx := by
  unfold token_allocations
  rw [List.map_map]
  rfl

theorem validAux_cons (j : ℕ) (r : Record) (rest : List Record) :
    validAux j (r :: rest) =
      if isValidEntry r = true then
        ⟨j, r, pvpOf r, stockOf r⟩ :: validAux (j + 1) rest
      else validAux (j + 1) rest := rfl

theorem applyAllocsAux_cons (allocs : List Alloc) (j : ℕ) (r : Record)
    (rest : List Record) :
    applyAllocsAux allocs j (r :: rest) =
      (match allocs.find? (fun a => a.idx == j) with
       | some a =>
          (r.set "token_price_number" (toString a.token_price_int)).set
            "price_currency_option_currency_type" "token"
       | none => r) :: applyAllocsAux allocs (j + 1) rest := rfl

theorem applyAllocsAux_spec (allocs : List Alloc) :
    ∀ (batch : List Record) (j : ℕ),
    (∀ i, j ≤ i → ((∃ a ∈ allocs, a.idx = i) ↔ ∃ v ∈ validAux j batch, v.idx = i)) →
    (applyAllocsAux allocs j batch).length = batch.length ∧
    ∀ pr ∈ batch.zip (applyAllocsAux allocs j batch),
      (isValidEntry pr.1 = false → pr.2 = pr.1) ∧
      (∀ k, k ≠ "token_price_number" → k ≠ "price_currency_option_currency_type" →
        Record.get pr.2 k = Record.get pr.1 k) ∧
      (isValidEntry pr.1 = true →
        Record.get pr.2 "price_currency_option_currency_type" = "token") := by
  intro batch
  induction batch with
  | nil =>
    intro j _
    exact ⟨rfl, by simp⟩
  | cons r rest ih =>
    intro j hinv
    by_cases hr : isValidEntry r = true
    · have hj : ∃ a ∈ allocs, a.idx = j := by
        apply (hinv j le_rfl).mpr
        refine ⟨⟨j, r, pvpOf r, stockOf r⟩, ?_, rfl⟩
        rw [validAux_cons, if_pos hr]
        exact List.mem_cons_self _ _
      have hfind : (allocs.find? (fun a => a.idx == j)).isSome = true := by
        rw [List.find?_isSome]
        rcases hj with ⟨a, ha, hai⟩
        exact ⟨a, ha, by simp [hai]⟩
      rcases Option.isSome_iff_exists.mp hfind with ⟨a, ha⟩
      have htail : ∀ i, j + 1 ≤ i →
          ((∃ x ∈ allocs, x.idx = i) ↔ ∃ v ∈ validAux (j + 1) rest, v.idx = i) := by
        intro i hi
        rw [hinv i (le_trans (Nat.le_succ j) hi)]
        rw [validAux_cons, if_pos hr]
        constructor
        · rintro ⟨v, hv, hvi⟩
          rcases List.mem_cons.mp hv with h1 | h2
          · exfalso
            have : v.idx = j := by rw [h1]
            omega
          · exact ⟨v, h2, hvi⟩
        · rintro ⟨v, hv, hvi⟩
          exact ⟨v, List.mem_cons_of_mem _ hv, hvi⟩
      rcases ih (j + 1) htail with ⟨hlen, hzip⟩
      rw [applyAllocsAux_cons, ha]
      refine ⟨by simp [hlen], ?_⟩
      intro pr hpr
      rcases List.mem_cons.mp hpr with h1 | h2
      · rw [h1]
        refine ⟨?_, ?_, ?_⟩
        · intro hfalse
          rw [hr] at hfalse
          cases hfalse
        · intro k hk1 hk2
          rw [Record.get_set_ne _ _ _ _ hk2, Record.get_set_ne _ _ _ _ hk1]
        · intro _
          exact Record.get_set_self _ _ _
      · exact hzip pr h2
    · have hfind : allocs.find? (fun a => a.idx == j) = none := by
        cases hfe : allocs.find? (fun a => a.idx == j) with
        | none => rfl
        | some a =>
          exfalso
          have hmem := List.mem_of_find?_eq_some hfe
          have hai : a.idx = j := by simpa using List.find?_some hfe
          have hex : ∃ v ∈ validAux j (r :: rest), v.idx = j :=
            (hinv j le_rfl).mp ⟨a, hmem, hai⟩
          rcases hex with ⟨v, hv, hvi⟩
          rw [show validAux j (r :: rest) = validAux (j + 1) rest from by
            rw [validAux_cons, if_neg hr]] at hv
          have := (mem_validAux (j + 1) rest hv).2.2.2
          omega
      have htail : ∀ i, j + 1 ≤ i →
          ((∃ x ∈ allocs, x.idx = i) ↔ ∃ v ∈ validAux (j + 1) rest, v.idx = i) := by
        intro i hi
        rw [hinv i (le_trans (Nat.le_succ j) hi)]
        rw [show validAux j (r :: rest) = validAux (j + 1) rest from by
          rw [validAux_cons, if_neg hr]]
      rcases ih (j + 1) htail with ⟨hlen, hzip⟩
      rw [applyAllocsAux_cons, hfind]
      refine ⟨by simp [hlen], ?_⟩
      intro pr hpr
      rcases List.mem_cons.mp hpr with h1 | h2
      · rw [h1]
        refine ⟨fun _ => rfl, fun k _ _ => rfl, ?_⟩
        intro htrue
        exact absurd htrue hr
      · exact hzip pr h2

/-- Claim C9: on the success path, the output has one record per input
record; a record rejected by the validity filter is returned unchanged; a
processed record agrees with its input on every field other than
`token_price_number` and `price_currency_option_currency_type`, and the
latter is always set to the constant "token". -/
theorem writes_only_token_fields (batch : List Record) (T : ℤ)
    (recs : List Record) (s : ℤ)
    (h : calculate_token_prices batch T = (recs, some s)) :
    recs.length = batch.length ∧
    ∀ pr ∈ batch.zip recs,
      (isValidEntry pr.1 = false → pr.2 = pr.1) ∧
      (∀ k, k ≠ "token_price_number" → k ≠ "price_currency_option_currency_type" →
        Record.get pr.2 k = Record.get pr.1 k) ∧
      (isValidEntry pr.1 = true →
        Record.get pr.2 "price_currency_option_currency_type" = "token") := by
  have hv : valid_records batch ≠ [] := by
    intro he
    unfold calculate_token_prices at h
    rw [if_pos (by simp [List.isEmpty_iff, he])] at h
    have h2 := congrArg Prod.snd h
    simp at h2
  rw [calculate_eq_of_valid batch T hv] at h
  have hrecs : applyAllocs batch (redistribute (token_allocations batch T) T) = recs :=
    congrArg Prod.fst h
  have hperm :
      ((redistribute (token_allocations batch T) T).map Alloc.idx).Perm
        ((valid_records batch).map ValidRec.idx) := by
    rw [← token_allocations_map_idx batch T]
    exact redistribute_idx_perm _ T
  have hinv : ∀ i, 0 ≤ i →
      ((∃ a ∈ redistribute (token_allocations batch T) T, a.idx = i) ↔
        ∃ v ∈ validAux 0 batch, v.idx = i) := by
    intro i _
    constructor
    · rintro ⟨a, ha, hai⟩
      have : i ∈ (redistribute (token_allocations batch T) T).map Alloc.idx :=
        List.mem_map.mpr ⟨a, ha, hai⟩
      have := hperm.mem_iff.mp this
      exact List.mem_map.mp this
    · rintro ⟨v, hv2, hvi⟩
      have : i ∈ (valid_records batch).map ValidRec.idx :=
        List.mem_map.mpr ⟨v, hv2, hvi⟩
      have := hperm.mem_iff.mpr this
      exact List.mem_map.mp this
  have := applyAllocsAux_spec (redistribute (token_allocations batch T) T) batch 0 hinv
  rw [show applyAllocsAux (redistribute (token_allocations batch T) T) 0 batch =
      applyAllocs batch (redistribute (token_allocations batch T) T) from rfl,
    hrecs] at this
  exact this

/-- Witness for `writes_only_token_fields`: batch9 (one valid, one invalid
record) at targetSum 3 produces `recs9`, whose length matches. -/
theorem writes_only_token_fields_witness : recs9.length = batch9.length :=
  (writes_only_token_fields batch9 3 recs9 3 (by decide)).1

end TokenPrices
